import Mathlib

/-!
Shallow embedding of `oschecks/check_heat-stack.py` (Heat monitoring probe).

The script's effectful primitives are modelled by passing their observable
behaviour explicitly:
 - `heat_client.stacks.get(stack_id).status` inside `wait_for_completion`
   becomes a function `statuses : Nat → String` giving the status string
   returned by the k-th fetch;
 - underlying service calls (`client.delete`, `client.force_delete`) become
   `Except String Unit` values describing whether the call raises;
 - `sys.exit` through `script_critical` / `script_warning` becomes a
   `ProbeOutcome` value.
Python `set`s are modelled as lists with membership-based operations, and
Python `dict`s as insertion-ordered association lists.
-/

namespace HeatCheck

/-! ## `wait_for_completion` (lines 71-85)

The loop variable `spent_time` is always `5 * k` where `k` counts
completed sleeps, so we recurse on the fetch index `k`.  The `fuel`
argument is a modelling device for termination: with `fuel = timeout`
the fuel never runs out before the loop condition `spent_time < timeout`
turns false (each iteration adds 5 to `spent_time`), and the fuel-zero
fallback returns the same `spent_time` as the loop exit does. -/

def waitAux (statuses : Nat → String) (timeout : Nat) : Nat → Nat → Except String Nat
  | 0, k => Except.ok (5 * k)
  | fuel + 1, k =>
    if 5 * k < timeout then
      let st := statuses k
      if st = "COMPLETE" then Except.ok (5 * k)
      else if st = "IN_PROGRESS" then waitAux statuses timeout fuel (k + 1)
      else Except.error ("Stack is in " ++ st ++ " state")
    else Except.ok (5 * k)

def wait_for_completion (statuses : Nat → String) (timeout : Nat) : Except String Nat :=
  waitAux statuses timeout timeout 0

/-! ## `force_delete_resource` (lines 88-95) -/

/-- Observable events of `force_delete_resource`. -/
inductive FDEvent
  | deleteCall
  | sleepCall (seconds : Nat)
  | forceDeleteCall
  deriving DecidableEq, Repr

/-- `try: ... except: pass` around a single underlying call: whatever the
call does, execution continues normally. -/
def tryPass : Except String Unit → Except String Unit
  | Except.ok _ => Except.ok ()
  | Except.error _ => Except.ok ()

/-- `force_delete_resource`, parameterised by the behaviour of the two
underlying service calls.  Returns the function's outcome together with the
trace of calls it performs. -/
def force_delete_resource (del fdel : Except String Unit) :
    Except String Unit × List FDEvent :=
  match tryPass del with
  | Except.error e => (Except.error e, [FDEvent.deleteCall])
  | Except.ok _ =>
    match tryPass fdel with
    | Except.error e =>
      (Except.error e, [FDEvent.deleteCall, FDEvent.sleepCall 15, FDEvent.forceDeleteCall])
    | Except.ok _ =>
      (Except.ok (),
        [FDEvent.deleteCall, FDEvent.sleepCall 15,
         FDEvent.forceDeleteCall, FDEvent.sleepCall 15])

/-! ## `topological_sort` (lines 115-132)

The generator is modelled as a function returning the full list of yielded
names in order, together with a flag that is `true` exactly when the
generator ends by executing `raise TopologicalSortFailure()` (line 130;
note that no class of that name is defined anywhere in the script, so at
runtime that statement raises `NameError`).  One iteration of the
`while items:` loop is `topoScan`; it threads `provided` (which grows as
items are yielded within the same scan) and returns the updated
`provided`, the names yielded during the scan, and `remaining_items`. -/

def topoScan (provided : List String) :
    List (String × List String) → List String × List String × List (String × List String)
  | [] => (provided, [], [])
  | (item, dependencies) :: rest =>
    if ∀ d ∈ dependencies, d ∈ provided then
      ((topoScan (item :: provided) rest).1,
       item :: (topoScan (item :: provided) rest).2.1,
       (topoScan (item :: provided) rest).2.2)
    else
      ((topoScan provided rest).1,
       (topoScan provided rest).2.1,
       (item, dependencies) :: (topoScan provided rest).2.2)

/-- The `while items:` loop.  `fuel` is a termination device: every scan
that yields at least one item strictly shrinks `items`, so `fuel =
items.length` suffices and the fuel-zero fallback (which reports a stall)
is never reached from `topological_sort`. -/
def topoLoop : Nat → List String → List (String × List String) → List String × Bool
  | _, _, [] => ([], false)
  | 0, _, _ :: _ => ([], true)
  | fuel + 1, provided, x :: xs =>
    if (topoScan provided (x :: xs)).2.1 = [] then ([], true)
    else
      ((topoScan provided (x :: xs)).2.1
          ++ (topoLoop fuel (topoScan provided (x :: xs)).1
                (topoScan provided (x :: xs)).2.2).1,
       (topoLoop fuel (topoScan provided (x :: xs)).1
          (topoScan provided (x :: xs)).2.2).2)

def topological_sort (items : List (String × List String)) : List String × Bool :=
  topoLoop items.length [] items

/-- The keys of a dependency list: the names of the graph's nodes. -/
def keysOf (items : List (String × List String)) : List String :=
  items.map Prod.fst

/-! ## `delete_stack` (lines 135-171) -/

/-- The fields of a Heat stack resource that `delete_stack` reads. -/
structure Resource where
  resource_name : String
  required_by : List String
  resource_status : String
  resource_type : String
  physical_resource_id : String
  deriving DecidableEq, Repr

/-- `resources[name]` where `resources` is the dict filled at line 149;
later list entries overwrite earlier ones, as dict assignment does. -/
def resLookup (resources : List Resource) (name : String) : Option Resource :=
  resources.reverse.find? (fun r => r.resource_name == name)

/-- `dependencies.setdefault(key, set())` (line 150): ensure `key` has an
entry, mapping to the empty set when absent. -/
def ensureKey (d : List (String × List String)) (key : String) :
    List (String × List String) :=
  if key ∈ keysOf d then d else d ++ [(key, [])]

/-- `dependencies.setdefault(key, set()).add(x)` (line 153). -/
def addDep : List (String × List String) → String → String → List (String × List String)
  | [], key, x => [(key, [x])]
  | (k, s) :: rest, key, x =>
    if k = key then (k, if x ∈ s then s else x :: s) :: rest
    else (k, s) :: addDep rest key x

/-- The dependency graph built by the loop at lines 148-153. -/
def buildDeps (resources : List Resource) : List (String × List String) :=
  resources.foldl
    (fun d r =>
      r.required_by.foldl (fun d2 rb => addDep d2 rb r.resource_name)
        (ensureKey d r.resource_name))
    []

/-- A force-delete action: which service client is used (`"cinder"` for
`cinder_client.volumes`, `"nova"` for `nova_client.servers`) and the
physical resource id passed to `force_delete_resource`. -/
abbrev Action := String × String

/-- The body of the loop at lines 155-161, run over the names yielded by
the topological sort, in order.  The `Bool` is `true` when the loop dies
with an uncaught `KeyError` (`resources[resource_name]` at line 156 for a
name that is not a key of the resources dict); actions issued before that
point stand. -/
def processNames (resources : List Resource) : List String → List Action × Bool
  | [] => ([], false)
  | n :: rest =>
    match resLookup resources n with
    | none => ([], true)
    | some r =>
      let acts :=
        if r.resource_status = "DELETE_FAILED" then
          if r.resource_type = "OS::Cinder::Volume" then
            [("cinder", r.physical_resource_id)]
          else if r.resource_type = "OS::Nova::Server" then
            [("nova", r.physical_resource_id)]
          else []
        else []
      let p := processNames resources rest
      (acts ++ p.1, p.2)

/-- The forceful recovery pass (lines 145-161): build the dependency
graph, sort it topologically, and walk the yielded names issuing
force-deletes.  The `Bool` is `true` when the pass dies with an uncaught
exception: either the `KeyError` above, or the generator's stall raise at
line 130 (which, `TopologicalSortFailure` being undefined, is a
`NameError`); neither is a `FailedDeletion`, so either escapes
`delete_stack`. -/
def recoveryPass (resources : List Resource) : List Action × Bool :=
  let ts := topological_sort (buildDeps resources)
  let p := processNames resources ts.1
  (p.1, p.2 || ts.2)

/-- How a call to `delete_stack` ends: fall through normally, exit via
`script_warning` / `script_critical`, or let a non-`FailedDeletion`
exception escape. -/
inductive ProbeOutcome
  | ok
  | warning (msg : String)
  | critical (msg : String)
  | uncaught
  deriving DecidableEq, Repr

/-- `delete_stack`, parameterised by the status sequences observed by the
first and the second `wait_for_completion` call and by the resource
listing.  Returns the outcome together with the force-delete actions
issued. -/
def delete_stack (statuses1 statuses2 : Nat → String) (resources : List Resource)
    (timeout : Nat) : ProbeOutcome × List Action :=
  match wait_for_completion statuses1 timeout with
  | Except.ok spent =>
    if spent ≥ timeout then (ProbeOutcome.critical "Stack deletion took too long", [])
    else (ProbeOutcome.ok, [])
  | Except.error e =>
    let p := recoveryPass resources
    if p.2 then (ProbeOutcome.uncaught, p.1)
    else
      match wait_for_completion statuses2 timeout with
      | Except.ok _ => (ProbeOutcome.warning "Stack needed to force deleted", p.1)
      | Except.error _ =>
        (ProbeOutcome.critical ("Error while deleting the Heat stack: " ++ e ++ "\n"), p.1)

/-! ## Lemmas about `waitAux` -/

theorem waitAux_zero (statuses : Nat → String) (timeout k : Nat) :
    waitAux statuses timeout 0 k = Except.ok (5 * k) := rfl

theorem waitAux_step_done (statuses : Nat → String) (timeout fuel k : Nat)
    (hc : ¬ 5 * k < timeout) :
    waitAux statuses timeout (fuel + 1) k = Except.ok (5 * k) := by
  simp [waitAux, hc]

theorem waitAux_step_complete (statuses : Nat → String) (timeout fuel k : Nat)
    (hc : 5 * k < timeout) (hs : statuses k = "COMPLETE") :
    waitAux statuses timeout (fuel + 1) k = Except.ok (5 * k) := by
  simp [waitAux, hc, hs]

theorem waitAux_step_in_progress (statuses : Nat → String) (timeout fuel k : Nat)
    (hc : 5 * k < timeout) (hs : statuses k = "IN_PROGRESS") :
    waitAux statuses timeout (fuel + 1) k = waitAux statuses timeout fuel (k + 1) := by
  simp [waitAux, hc, hs]

theorem waitAux_step_error (statuses : Nat → String) (timeout fuel k : Nat)
    (hc : 5 * k < timeout) (hsc : statuses k ≠ "COMPLETE") (hsi : statuses k ≠ "IN_PROGRESS") :
    waitAux statuses timeout (fuel + 1) k
      = Except.error ("Stack is in " ++ statuses k ++ " state") := by
  simp [waitAux, hc, hsc, hsi]

/-- If every fetch made while the budget lasts reports `IN_PROGRESS`, the
loop runs to budget exhaustion and returns its `spent_time`, which is then
at least `timeout` (given adequate fuel). -/
theorem waitAux_all_in_progress (statuses : Nat → String) (timeout : Nat) :
    ∀ fuel k, timeout ≤ 5 * k + fuel →
      (∀ j, 5 * j < timeout → statuses j = "IN_PROGRESS") →
      ∃ e, waitAux statuses timeout fuel k = Except.ok e ∧ timeout ≤ e := by
  intro fuel
  induction fuel with
  | zero => intro k hk _; exact ⟨5 * k, waitAux_zero _ _ _, by omega⟩
  | succ f ih =>
    intro k hk hall
    by_cases hc : 5 * k < timeout
    · rw [waitAux_step_in_progress statuses timeout f k hc (hall k hc)]
      exact ih (k + 1) (by omega) hall
    · exact ⟨5 * k, waitAux_step_done statuses timeout f k hc, by omega⟩

/-- If the `n`-th fetch after position `k` is the first non-`IN_PROGRESS`
one, happens inside the budget, and reports neither `COMPLETE` nor
`IN_PROGRESS`, the loop raises carrying that status (given adequate fuel). -/
theorem waitAux_error_at (statuses : Nat → String) (timeout : Nat) :
    ∀ n k fuel, n < fuel → 5 * (k + n) < timeout →
      (∀ j, j < n → statuses (k + j) = "IN_PROGRESS") →
      statuses (k + n) ≠ "COMPLETE" → statuses (k + n) ≠ "IN_PROGRESS" →
      waitAux statuses timeout fuel k
        = Except.error ("Stack is in " ++ statuses (k + n) ++ " state") := by
  intro n
  induction n with
  | zero =>
    intro k fuel hf hc _ hsc hsi
    obtain ⟨f, rfl⟩ : ∃ f, fuel = f + 1 := ⟨fuel - 1, by omega⟩
    have hc0 : 5 * k < timeout := by omega
    rw [waitAux_step_error statuses timeout f k hc0
      (by simpa using hsc) (by simpa using hsi)]
    simp
  | succ n ih =>
    intro k fuel hf hc hall hsc hsi
    obtain ⟨f, rfl⟩ : ∃ f, fuel = f + 1 := ⟨fuel - 1, by omega⟩
    have hc0 : 5 * k < timeout := by omega
    rw [waitAux_step_in_progress statuses timeout f k hc0
      (by simpa using hall 0 (by omega))]
    have := ih (k + 1) f (by omega) (by omega)
      (fun j hj => by
        have := hall (j + 1) (by omega)
        simpa [Nat.add_assoc, Nat.add_comm 1 j] using this)
      (by simpa [Nat.add_assoc, Nat.add_comm 1 n] using hsc)
      (by simpa [Nat.add_assoc, Nat.add_comm 1 n] using hsi)
    simpa [Nat.add_assoc, Nat.add_comm 1 n] using this

/-! ## Claim theorems: poller and forceful deleter -/

/-- C4: for every behaviour of the underlying `delete` and `force_delete`
calls — each may return normally or raise anything — `force_delete_resource`
returns normally (and always performs both attempts and both sleeps). -/
theorem claim_C4_force_delete_never_raises (del fdel : Except String Unit) :
    (force_delete_resource del fdel).1 = Except.ok ()
      ∧ (force_delete_resource del fdel).2
          = [FDEvent.deleteCall, FDEvent.sleepCall 15,
             FDEvent.forceDeleteCall, FDEvent.sleepCall 15] := by
  cases del <;> cases fdel <;> simp [force_delete_resource, tryPass]

/-- C5: with the first three fetches yielding `IN_PROGRESS`, `IN_PROGRESS`,
`COMPLETE` and any `timeout ≥ 15`, `wait_for_completion` returns elapsed
time exactly 10 (two 5-second sleeps before success is observed). -/
theorem claim_C5_wait_three_fetches (statuses : Nat → String) (timeout : Nat)
    (h0 : statuses 0 = "IN_PROGRESS") (h1 : statuses 1 = "IN_PROGRESS")
    (h2 : statuses 2 = "COMPLETE") (ht : 15 ≤ timeout) :
    wait_for_completion statuses timeout = Except.ok 10 := by
  obtain ⟨f, rfl⟩ : ∃ f, timeout = f + 1 + 1 + 1 := ⟨timeout - 3, by omega⟩
  rw [wait_for_completion,
    waitAux_step_in_progress statuses _ _ 0 (by omega) h0,
    waitAux_step_in_progress statuses _ _ 1 (by omega) h1,
    waitAux_step_complete statuses _ _ 2 (by omega) h2]

/-- Witness for C5 at a concrete status sequence and `timeout = 15`. -/
theorem claim_C5_witness :
    wait_for_completion (fun k => if k < 2 then "IN_PROGRESS" else "COMPLETE") 15
      = Except.ok 10 :=
  claim_C5_wait_three_fetches _ 15 rfl rfl rfl (by omega)

/-- C6: if the status stays `IN_PROGRESS` at every fetch made while the
budget lasts, `wait_for_completion` returns normally with an elapsed value
at least `timeout` (the caller's timed-out sentinel). -/
theorem claim_C6_wait_timeout_sentinel (statuses : Nat → String) (timeout : Nat)
    (hall : ∀ j, 5 * j < timeout → statuses j = "IN_PROGRESS") :
    ∃ e, wait_for_completion statuses timeout = Except.ok e ∧ timeout ≤ e :=
  waitAux_all_in_progress statuses timeout timeout 0 (by omega) hall

/-- Witness for C6 at a concrete always-in-progress sequence. -/
theorem claim_C6_witness :
    ∃ e, wait_for_completion (fun _ => "IN_PROGRESS") 17 = Except.ok e ∧ 17 ≤ e :=
  claim_C6_wait_timeout_sentinel (fun _ => "IN_PROGRESS") 17 (fun _ _ => rfl)

/-- C7: if some fetch inside the budget reports a status that is neither
`COMPLETE` nor `IN_PROGRESS` (all earlier fetches having reported
`IN_PROGRESS`, so that the fetch is reached), the poller raises its
failure exception carrying the reported status string. -/
theorem claim_C7_wait_failure_status (statuses : Nat → String) (timeout n : Nat)
    (hc : 5 * n < timeout)
    (hall : ∀ j, j < n → statuses j = "IN_PROGRESS")
    (hsc : statuses n ≠ "COMPLETE") (hsi : statuses n ≠ "IN_PROGRESS") :
    wait_for_completion statuses timeout
      = Except.error ("Stack is in " ++ statuses n ++ " state") := by
  have := waitAux_error_at statuses timeout n 0 timeout (by omega) (by omega)
    (fun j hj => by simpa using hall j hj) (by simpa using hsc) (by simpa using hsi)
  simpa [wait_for_completion] using this

/-- Witness for C7: second fetch reports `DELETE_FAILED`. -/
theorem claim_C7_witness :
    wait_for_completion (fun k => if k = 0 then "IN_PROGRESS" else "DELETE_FAILED") 45
      = Except.error "Stack is in DELETE_FAILED state" := by
  have := claim_C7_wait_failure_status
    (fun k => if k = 0 then "IN_PROGRESS" else "DELETE_FAILED") 45 1
    (by omega) (fun j hj => by interval_cases j; rfl)
    (by decide) (by decide)
  simpa using this

/-! ## Lemmas about `topoScan` -/

theorem mem_keysOf_of_mem {items : List (String × List String)} {q : String × List String}
    (hq : q ∈ items) : q.1 ∈ keysOf items :=
  List.mem_map_of_mem Prod.fst hq

theorem keysOf_unique {items : List (String × List String)}
    (hnd : (keysOf items).Nodup) {a : String} {b c : List String}
    (hb : (a, b) ∈ items) (hc : (a, c) ∈ items) : b = c := by
  induction items with
  | nil => cases hb
  | cons hd tl ih =>
    obtain ⟨k, v⟩ := hd
    simp only [keysOf, List.map_cons, List.nodup_cons] at hnd
    rcases List.mem_cons.mp hb with hb | hb <;> rcases List.mem_cons.mp hc with hc | hc
    · rw [Prod.mk.injEq] at hb hc; rw [hb.2, hc.2]
    · exfalso; apply hnd.1
      rw [Prod.mk.injEq] at hb
      rw [← hb.1]
      exact mem_keysOf_of_mem hc
    · exfalso; apply hnd.1
      rw [Prod.mk.injEq] at hc
      rw [← hc.1]
      exact mem_keysOf_of_mem hb
    · exact ih hnd.2 hb hc

theorem topoScan_provided_mem (items : List (String × List String)) :
    ∀ p x, x ∈ (topoScan p items).1 ↔ x ∈ (topoScan p items).2.1 ∨ x ∈ p := by
  induction items with
  | nil => intro p x; simp [topoScan]
  | cons hd tl ih =>
    obtain ⟨item, deps⟩ := hd
    intro p x
    by_cases hc : ∀ d ∈ deps, d ∈ p
    · simp only [topoScan, if_pos hc]
      rw [ih (item :: p) x]
      simp only [List.mem_cons]
      tauto
    · simp only [topoScan, if_neg hc]
      exact ih p x

theorem topoScan_length (items : List (String × List String)) :
    ∀ p, (topoScan p items).2.1.length + (topoScan p items).2.2.length = items.length := by
  induction items with
  | nil => intro p; simp [topoScan]
  | cons hd tl ih =>
    obtain ⟨item, deps⟩ := hd
    intro p
    by_cases hc : ∀ d ∈ deps, d ∈ p
    · simp only [topoScan, if_pos hc, List.length_cons]
      rw [Nat.succ_add]
      rw [ih (item :: p)]
    · simp only [topoScan, if_neg hc, List.length_cons]
      rw [Nat.add_succ]
      rw [ih p]

theorem topoScan_remaining_sublist (items : List (String × List String)) :
    ∀ p, (topoScan p items).2.2.Sublist items := by
  induction items with
  | nil => intro p; simp [topoScan]
  | cons hd tl ih =>
    obtain ⟨item, deps⟩ := hd
    intro p
    by_cases hc : ∀ d ∈ deps, d ∈ p
    · simp only [topoScan, if_pos hc]
      exact (ih (item :: p)).cons _
    · simp only [topoScan, if_neg hc]
      exact (ih p).cons₂ _

theorem topoScan_keys_perm (items : List (String × List String)) :
    ∀ p, (keysOf items).Perm
      ((topoScan p items).2.1 ++ keysOf (topoScan p items).2.2) := by
  induction items with
  | nil => intro p; simp [topoScan, keysOf]
  | cons hd tl ih =>
    obtain ⟨item, deps⟩ := hd
    intro p
    by_cases hc : ∀ d ∈ deps, d ∈ p
    · simp only [topoScan, if_pos hc, keysOf, List.map_cons, List.cons_append]
      exact (ih (item :: p)).cons item
    · simp only [topoScan, if_neg hc, keysOf, List.map_cons]
      exact ((ih p).cons item).trans List.perm_middle.symm

theorem topoScan_emitted_subset (items : List (String × List String)) (p : List String) :
    (topoScan p items).2.1 ⊆ keysOf items := by
  intro x hx
  exact (topoScan_keys_perm items p).mem_iff.mpr (List.mem_append_left _ hx)

/-- Soundness of a single scan: a name yielded during the scan had all of
the dependencies recorded for it inside the initial `provided` set or
among the names yielded earlier in the same scan. -/
theorem topoScan_sound (items : List (String × List String)) :
    ∀ p pre x post deps, (keysOf items).Nodup →
      (topoScan p items).2.1 = pre ++ x :: post →
      (x, deps) ∈ items → ∀ d ∈ deps, d ∈ p ∨ d ∈ pre := by
  induction items with
  | nil =>
    intro p pre x post deps _ hdec
    simp [topoScan] at hdec
  | cons hd tl ih =>
    obtain ⟨item, dp⟩ := hd
    intro p pre x post deps hnd hdec hmem d hd'
    have hnd' : (keysOf tl).Nodup := by
      simp only [keysOf, List.map_cons, List.nodup_cons] at hnd
      exact hnd.2
    have hitem : item ∉ keysOf tl := by
      simp only [keysOf, List.map_cons, List.nodup_cons] at hnd
      exact hnd.1
    by_cases hc : ∀ d' ∈ dp, d' ∈ p
    · simp only [topoScan, if_pos hc] at hdec
      cases pre with
      | nil =>
        rw [List.nil_append] at hdec
        injection hdec with h1 h2
        rcases List.mem_cons.mp hmem with hh | ht
        · rw [Prod.mk.injEq] at hh
          left; apply hc; rw [← hh.2]; exact hd'
        · exfalso; apply hitem; rw [h1]
          exact mem_keysOf_of_mem ht
      | cons a pre' =>
        rw [List.cons_append] at hdec
        injection hdec with h1 h2
        rcases List.mem_cons.mp hmem with hh | ht
        · exfalso
          rw [Prod.mk.injEq] at hh
          apply hitem
          rw [← hh.1]
          apply topoScan_emitted_subset tl (item :: p)
          rw [h2]; exact List.mem_append_right _ (List.mem_cons_self _ _)
        · rcases ih (item :: p) pre' x post deps hnd' h2 ht d hd' with h | h
          · rcases List.mem_cons.mp h with h | h
            · right; rw [h, h1]; exact List.mem_cons_self _ _
            · left; exact h
          · right; exact List.mem_cons.mpr (Or.inr h)
    · simp only [topoScan, if_neg hc] at hdec
      rcases List.mem_cons.mp hmem with hh | ht
      · exfalso
        rw [Prod.mk.injEq] at hh
        apply hitem
        rw [← hh.1]
        apply topoScan_emitted_subset tl p
        rw [hdec]; exact List.mem_append_right _ (List.mem_cons_self _ _)
      · exact ih p pre x post deps hnd' hdec ht d hd'

/-- Progress: if some pair's recorded dependencies are all already
provided, the scan yields at least one name. -/
theorem topoScan_progress (items : List (String × List String)) :
    ∀ p, (∃ q ∈ items, ∀ d ∈ q.2, d ∈ p) → (topoScan p items).2.1 ≠ [] := by
  induction items with
  | nil =>
    intro p h
    rcases h with ⟨q, hq, _⟩
    cases hq
  | cons hd tl ih =>
    obtain ⟨item, dp⟩ := hd
    intro p h
    by_cases hc : ∀ d ∈ dp, d ∈ p
    · simp [topoScan, if_pos hc]
    · simp only [topoScan, if_neg hc]
      rcases h with ⟨q, hq, hqd⟩
      rcases List.mem_cons.mp hq with hh | ht
      · subst hh
        exact absurd hqd hc
      · exact ih p ⟨q, ht, hqd⟩

/-- Every nonempty list has an element of minimal rank. -/
theorem exists_min_rank {α : Type} (f : α → Nat) :
    ∀ l : List α, l ≠ [] → ∃ a ∈ l, ∀ b ∈ l, f a ≤ f b := by
  intro l
  induction l with
  | nil => intro h; exact absurd rfl h
  | cons x xs ih =>
    intro _
    by_cases hxs : xs = []
    · subst hxs
      refine ⟨x, List.mem_cons_self _ _, ?_⟩
      intro b hb
      rcases List.mem_cons.mp hb with rfl | hb
      · exact le_rfl
      · cases hb
    · obtain ⟨a, ha, hmin⟩ := ih hxs
      by_cases hfa : f x ≤ f a
      · refine ⟨x, List.mem_cons_self _ _, ?_⟩
        intro b hb
        rcases List.mem_cons.mp hb with rfl | hb
        · exact le_rfl
        · exact le_trans hfa (hmin b hb)
      · refine ⟨a, List.mem_cons.mpr (Or.inr ha), ?_⟩
        intro b hb
        rcases List.mem_cons.mp hb with rfl | hb
        · omega
        · exact hmin b hb

/-! ## Lemmas about `topoLoop` -/

theorem keysOf_sublist {r items : List (String × List String)} (h : r.Sublist items) :
    (keysOf r).Sublist (keysOf items) :=
  h.map Prod.fst

theorem topoLoop_out_subset :
    ∀ (fuel : Nat) (p : List String) (items : List (String × List String)),
      (topoLoop fuel p items).1 ⊆ keysOf items := by
  intro fuel
  induction fuel with
  | zero =>
    intro p items
    cases items with
    | nil => simp [topoLoop]
    | cons x xs => simp [topoLoop]
  | succ f ih =>
    intro p items
    cases items with
    | nil => simp [topoLoop]
    | cons x xs =>
      by_cases he : (topoScan p (x :: xs)).2.1 = []
      · simp [topoLoop, he]
      · simp only [topoLoop, if_neg he]
        intro y hy
        rcases List.mem_append.mp hy with hy | hy
        · exact topoScan_emitted_subset _ _ hy
        · exact (keysOf_sublist (topoScan_remaining_sublist (x :: xs) p)).subset
            (ih (topoScan p (x :: xs)).1 (topoScan p (x :: xs)).2.2 hy)

/-- Soundness of the whole sort: every yielded name had all of its recorded
dependencies inside the initial `provided` set or among the names yielded
strictly earlier — whether or not the run ends in a stall. -/
theorem topoLoop_sound :
    ∀ (fuel : Nat) (p : List String) (items : List (String × List String)),
      (keysOf items).Nodup →
      ∀ pre x post deps, (topoLoop fuel p items).1 = pre ++ x :: post →
        (x, deps) ∈ items → ∀ d ∈ deps, d ∈ p ∨ d ∈ pre := by
  intro fuel
  induction fuel with
  | zero =>
    intro p items _ pre x post deps hdec
    cases items with
    | nil => simp [topoLoop] at hdec
    | cons a as => simp [topoLoop] at hdec
  | succ f ih =>
    intro p items hnd pre x post deps hdec hmem d hd'
    cases items with
    | nil => simp [topoLoop] at hdec
    | cons a as =>
      by_cases he : (topoScan p (a :: as)).2.1 = []
      · simp [topoLoop, he] at hdec
      · simp only [topoLoop, if_neg he] at hdec
        have hsub := topoScan_remaining_sublist (a :: as) p
        have hndr : (keysOf (topoScan p (a :: as)).2.2).Nodup :=
          (keysOf_sublist hsub).nodup hnd
        rcases List.append_eq_append_iff.mp hdec with ⟨a', ha1, ha2⟩ | ⟨c', hc1, hc2⟩
        · -- x was yielded by a later pass
          have hx : x ∈ (topoLoop f (topoScan p (a :: as)).1 (topoScan p (a :: as)).2.2).1 := by
            rw [ha2]; exact List.mem_append_right _ (List.mem_cons_self _ _)
          have hxk := topoLoop_out_subset f _ _ hx
          rcases List.mem_map.mp hxk with ⟨q', hq', hfst⟩
          have hq'x : (x, q'.2) ∈ (topoScan p (a :: as)).2.2 := by
            rw [← hfst]; exact hq'
          have hdeps : deps = q'.2 :=
            keysOf_unique hnd hmem (hsub.subset hq'x)
          rcases ih (topoScan p (a :: as)).1 (topoScan p (a :: as)).2.2 hndr
              a' x post q'.2 ha2 hq'x d (hdeps ▸ hd') with h | h
          · rcases (topoScan_provided_mem (a :: as) p d).mp h with h2 | h2
            · right; rw [ha1]; exact List.mem_append_left _ h2
            · left; exact h2
          · right; rw [ha1]; exact List.mem_append_right _ h
        · -- x was yielded during this pass (or c' = [])
          cases c' with
          | nil =>
            -- remaining run starts exactly at x
            rw [List.append_nil] at hc1
            have hc2' : x :: post
                = (topoLoop f (topoScan p (a :: as)).1 (topoScan p (a :: as)).2.2).1 := by
              simpa using hc2
            have hx : x ∈ (topoLoop f (topoScan p (a :: as)).1 (topoScan p (a :: as)).2.2).1 := by
              rw [← hc2']; exact List.mem_cons_self _ _
            have hxk := topoLoop_out_subset f _ _ hx
            rcases List.mem_map.mp hxk with ⟨q', hq', hfst⟩
            have hq'x : (x, q'.2) ∈ (topoScan p (a :: as)).2.2 := by
              rw [← hfst]; exact hq'
            have hdeps : deps = q'.2 :=
              keysOf_unique hnd hmem (hsub.subset hq'x)
            rcases ih (topoScan p (a :: as)).1 (topoScan p (a :: as)).2.2 hndr
                [] x post q'.2 hc2'.symm hq'x d (hdeps ▸ hd') with h | h
            · rcases (topoScan_provided_mem (a :: as) p d).mp h with h2 | h2
              · right; rw [← hc1]; exact h2
              · left; exact h2
            · cases h
          | cons x' c'' =>
            injection hc2 with hx' hpost
            rcases topoScan_sound (a :: as) p pre x c'' deps hnd
                (by rw [hc1, hx']) hmem d hd' with h | h
            · left; exact h
            · right; exact h

/-- Completeness: with adequate fuel, an acyclic and (relative to
`provided`) closed graph is fully ordered without a stall, and the yielded
names are a permutation of the graph's keys. -/
theorem topoLoop_complete (rank : String → Nat) :
    ∀ (fuel : Nat) (p : List String) (items : List (String × List String)),
      items.length ≤ fuel →
      (∀ q ∈ items, ∀ d ∈ q.2, rank d < rank q.1) →
      (∀ q ∈ items, ∀ d ∈ q.2, d ∈ p ∨ d ∈ keysOf items) →
      (topoLoop fuel p items).2 = false
        ∧ (topoLoop fuel p items).1.Perm (keysOf items) := by
  intro fuel
  induction fuel with
  | zero =>
    intro p items hlen _ _
    have : items = [] := List.eq_nil_of_length_eq_zero (Nat.le_zero.mp hlen)
    subst this
    simp [topoLoop, keysOf]
  | succ f ih =>
    intro p items hlen hrank hclosed
    cases items with
    | nil => simp [topoLoop, keysOf]
    | cons a as =>
      obtain ⟨q, hq, hqmin⟩ := exists_min_rank (fun q => rank q.1) (a :: as) (by simp)
      have hqprov : ∀ d ∈ q.2, d ∈ p := by
        intro d hd
        rcases hclosed q hq d hd with h | h
        · exact h
        · exfalso
          rcases List.mem_map.mp h with ⟨q', hq', hfst⟩
          have h1 := hrank q hq d hd
          have h2 := hqmin q' hq'
          rw [hfst] at h2
          omega
      have he : (topoScan p (a :: as)).2.1 ≠ [] :=
        topoScan_progress _ p ⟨q, hq, hqprov⟩
      simp only [topoLoop, if_neg he]
      have hsub := topoScan_remaining_sublist (a :: as) p
      have hl1 := topoScan_length (a :: as) p
      have hepos : 0 < (topoScan p (a :: as)).2.1.length := List.length_pos.mpr he
      have hlen2 : (topoScan p (a :: as)).2.2.length ≤ f := by
        simp only [List.length_cons] at hl1 hlen
        omega
      have hperm := topoScan_keys_perm (a :: as) p
      have ihr := ih (topoScan p (a :: as)).1 (topoScan p (a :: as)).2.2 hlen2
        (fun q' hq' d hd => hrank q' (hsub.subset hq') d hd)
        (fun q' hq' d hd => by
          rcases hclosed q' (hsub.subset hq') d hd with h | h
          · left; exact (topoScan_provided_mem (a :: as) p d).mpr (Or.inr h)
          · rcases List.mem_append.mp (hperm.subset h) with h2 | h2
            · left; exact (topoScan_provided_mem (a :: as) p d).mpr (Or.inl h2)
            · right; exact h2)
      exact ⟨ihr.1, (List.Perm.append_left _ ihr.2).trans hperm.symm⟩

/-! ## Claim theorems: topological scheduler -/

/-- C1: for every acyclic dependency graph given as a finite list of
`(name, dependency-set)` pairs — distinct names, every dependency present
as a key, and the dependency relation admitting a strict rank (no cycle) —
`topological_sort` finishes without a stall, produces every node of the
graph exactly once (its output is a permutation of the key list, which has
no duplicates), and each node is produced only after all names in its
dependency set have been produced. -/
theorem claim_C1_topological_sort_correct (items : List (String × List String))
    (hnd : (keysOf items).Nodup)
    (hclosed : ∀ q ∈ items, ∀ d ∈ q.2, d ∈ keysOf items)
    (hacyc : ∃ rank : String → Nat, ∀ q ∈ items, ∀ d ∈ q.2, rank d < rank q.1) :
    (topological_sort items).2 = false
    ∧ (topological_sort items).1.Perm (keysOf items)
    ∧ ∀ pre x post, (topological_sort items).1 = pre ++ x :: post →
        ∀ deps, (x, deps) ∈ items → ∀ d ∈ deps, d ∈ pre := by
  obtain ⟨rank, hrank⟩ := hacyc
  have hc := topoLoop_complete rank items.length [] items le_rfl hrank
    (fun q hq d hd => Or.inr (hclosed q hq d hd))
  refine ⟨hc.1, hc.2, ?_⟩
  intro pre x post hdec deps hmem d hd
  rcases topoLoop_sound items.length [] items hnd pre x post deps hdec hmem d hd with h | h
  · cases h
  · exact h

/-- Witness for C1 on the concrete acyclic graph
`a → b → c` (with `a` also depending on `c`). -/
theorem claim_C1_witness :
    (keysOf [("a", ["b", "c"]), ("b", ["c"]), ("c", [])]).Nodup
    ∧ ((topological_sort [("a", ["b", "c"]), ("b", ["c"]), ("c", [])]).2 = false
      ∧ (topological_sort [("a", ["b", "c"]), ("b", ["c"]), ("c", [])]).1.Perm
          (keysOf [("a", ["b", "c"]), ("b", ["c"]), ("c", [])])
      ∧ ∀ pre x post,
          (topological_sort [("a", ["b", "c"]), ("b", ["c"]), ("c", [])]).1
            = pre ++ x :: post →
          ∀ deps, (x, deps) ∈ [("a", ["b", "c"]), ("b", ["c"]), ("c", [])] →
            ∀ d ∈ deps, d ∈ pre) :=
  ⟨by decide,
   claim_C1_topological_sort_correct [("a", ["b", "c"]), ("b", ["c"]), ("c", [])]
     (by decide) (by decide)
     ⟨fun s => if s = "a" then 2 else if s = "b" then 1 else 0, by decide⟩⟩

/-- C2 (code bug evidence): on a graph that cannot be fully ordered the
scheduler does reach the stall branch having yielded only resolvable
nodes — here a self-loop and a dangling dependency, each yielding nothing
before the stall flag — but the statement it then executes,
`raise TopologicalSortFailure()` (line 130), names a class that is defined
nowhere in the script, so at runtime Python raises `NameError`, not the
distinct `TopologicalSortFailure` the claim (and the spec) require. -/
theorem claim_C2_stall_reached :
    topological_sort [("a", ["a"])] = ([], true)
    ∧ topological_sort [("a", ["b"])] = ([], true) :=
  ⟨rfl, rfl⟩

/-! ## Lemmas about `ensureKey` and `addDep` -/

theorem ensureKey_mem_key (d : List (String × List String)) (key : String) :
    key ∈ keysOf (ensureKey d key) := by
  by_cases h : key ∈ keysOf d
  · rw [ensureKey, if_pos h]; exact h
  · rw [ensureKey, if_neg h]
    simp [keysOf]

theorem ensureKey_keys_super (d : List (String × List String)) (key : String) :
    keysOf d ⊆ keysOf (ensureKey d key) := by
  by_cases h : key ∈ keysOf d
  · rw [ensureKey, if_pos h]
    exact List.Subset.refl _
  · rw [ensureKey, if_neg h]
    intro y hy
    rw [keysOf, List.map_append]
    exact List.mem_append_left _ hy

theorem ensureKey_pairs (d : List (String × List String)) (key : String)
    {q : String × List String} (hq : q ∈ d) : q ∈ ensureKey d key := by
  by_cases h : key ∈ keysOf d
  · rw [ensureKey, if_pos h]; exact hq
  · rw [ensureKey, if_neg h]
    exact List.mem_append_left _ hq

theorem ensureKey_pairs_src (d : List (String × List String)) (key : String)
    {q : String × List String} (hq : q ∈ ensureKey d key) :
    q ∈ d ∨ q = (key, []) := by
  by_cases h : key ∈ keysOf d
  · rw [ensureKey, if_pos h] at hq; left; exact hq
  · rw [ensureKey, if_neg h] at hq
    rcases List.mem_append.mp hq with h1 | h1
    · left; exact h1
    · right; simpa using h1

theorem addDep_mem_key (d : List (String × List String)) (key x : String) :
    key ∈ keysOf (addDep d key x) := by
  induction d with
  | nil => simp [addDep, keysOf]
  | cons hd tl ih =>
    obtain ⟨k, s⟩ := hd
    by_cases h : k = key
    · simp [addDep, h, keysOf]
    · simp only [addDep, if_neg h, keysOf, List.map_cons]
      exact List.mem_cons.mpr (Or.inr ih)

theorem addDep_keys_super (d : List (String × List String)) (key x : String) :
    keysOf d ⊆ keysOf (addDep d key x) := by
  induction d with
  | nil => simp [addDep, keysOf]
  | cons hd tl ih =>
    obtain ⟨k, s⟩ := hd
    by_cases h : k = key
    · simp [addDep, h, keysOf]
    · simp only [addDep, if_neg h, keysOf, List.map_cons]
      exact List.cons_subset_cons _ ih

theorem addDep_keys_sub (d : List (String × List String)) (key x : String) :
    keysOf (addDep d key x) ⊆ key :: keysOf d := by
  induction d with
  | nil => simp [addDep, keysOf]
  | cons hd tl ih =>
    obtain ⟨k, s⟩ := hd
    by_cases h : k = key
    · subst h; simp [addDep, keysOf, List.subset_cons_of_subset, List.Subset.refl]
    · simp only [addDep, if_neg h, keysOf, List.map_cons]
      intro y hy
      rcases List.mem_cons.mp hy with rfl | hy
      · exact List.mem_cons.mpr (Or.inr (List.mem_cons_self _ _))
      · rcases List.mem_cons.mp (ih hy) with rfl | hy2
        · exact List.mem_cons_self _ _
        · exact List.mem_cons.mpr (Or.inr (List.mem_cons.mpr (Or.inr hy2)))

theorem addDep_exists (d : List (String × List String)) (key x : String) :
    ∃ s, (key, s) ∈ addDep d key x ∧ x ∈ s := by
  induction d with
  | nil => exact ⟨[x], by simp [addDep], by simp⟩
  | cons hd tl ih =>
    obtain ⟨k, s⟩ := hd
    by_cases h : k = key
    · subst h
      by_cases hx : x ∈ s
      · exact ⟨s, by simp [addDep, hx], hx⟩
      · exact ⟨x :: s, by simp [addDep, hx], by simp⟩
    · obtain ⟨s', hs', hx⟩ := ih
      exact ⟨s', by simp only [addDep, if_neg h]; exact List.mem_cons.mpr (Or.inr hs'), hx⟩

theorem addDep_preserve (d : List (String × List String)) (key x : String)
    {a : String} {s : List String} (hq : (a, s) ∈ d) :
    ∃ s', (a, s') ∈ addDep d key x ∧ s ⊆ s' := by
  induction d with
  | nil => cases hq
  | cons hd tl ih =>
    obtain ⟨k, v⟩ := hd
    by_cases h : k = key
    · rcases List.mem_cons.mp hq with hh | ht
      · rw [Prod.mk.injEq] at hh
        refine ⟨if x ∈ v then v else x :: v, ?_, ?_⟩
        · simp only [addDep, if_pos h]
          exact List.mem_cons.mpr (Or.inl (by rw [hh.1]))
        · rw [hh.2]
          by_cases hx : x ∈ v
          · simp [hx]
          · simp only [if_neg hx]
            exact List.subset_cons_of_subset _ (List.Subset.refl _)
      · refine ⟨s, ?_, List.Subset.refl _⟩
        simp only [addDep, if_pos h]
        exact List.mem_cons.mpr (Or.inr ht)
    · rcases List.mem_cons.mp hq with hh | ht
      · refine ⟨s, ?_, List.Subset.refl _⟩
        simp only [addDep, if_neg h]
        exact List.mem_cons.mpr (Or.inl hh)
      · obtain ⟨s', hs', hsub⟩ := ih ht
        refine ⟨s', ?_, hsub⟩
        simp only [addDep, if_neg h]
        exact List.mem_cons.mpr (Or.inr hs')

theorem addDep_src (d : List (String × List String)) (key x : String)
    {a : String} {s : List String} (hq : (a, s) ∈ addDep d key x) :
    ∀ y ∈ s, (y = x ∧ a = key) ∨ ∃ s₀, (a, s₀) ∈ d ∧ y ∈ s₀ := by
  induction d with
  | nil =>
    simp only [addDep] at hq
    rcases List.mem_singleton.mp hq with h
    rw [Prod.mk.injEq] at h
    intro y hy
    rw [h.2] at hy
    exact Or.inl ⟨List.mem_singleton.mp hy, h.1⟩
  | cons hd tl ih =>
    obtain ⟨k, v⟩ := hd
    intro y hy
    by_cases h : k = key
    · simp only [addDep, if_pos h] at hq
      rcases List.mem_cons.mp hq with hh | ht
      · rw [Prod.mk.injEq] at hh
        rw [hh.2] at hy
        by_cases hx : x ∈ v
        · rw [if_pos hx] at hy
          exact Or.inr ⟨v, List.mem_cons.mpr (Or.inl (by rw [hh.1])), hy⟩
        · rw [if_neg hx] at hy
          rcases List.mem_cons.mp hy with rfl | hy2
          · exact Or.inl ⟨rfl, by rw [hh.1, h]⟩
          · exact Or.inr ⟨v, List.mem_cons.mpr (Or.inl (by rw [hh.1])), hy2⟩
      · exact Or.inr ⟨s, List.mem_cons.mpr (Or.inr ht), hy⟩
    · simp only [addDep, if_neg h] at hq
      rcases List.mem_cons.mp hq with hh | ht
      · exact Or.inr ⟨s, List.mem_cons.mpr (Or.inl hh), hy⟩
      · rcases ih ht y hy with h1 | ⟨s₀, hs₀, hys₀⟩
        · exact Or.inl h1
        · exact Or.inr ⟨s₀, List.mem_cons.mpr (Or.inr hs₀), hys₀⟩

/-! ## Lemmas about the dependency-graph build (lines 148-153) -/

theorem innerFold_keys_super (x : String) :
    ∀ (rbs : List String) (d : List (String × List String)),
      keysOf d ⊆ keysOf (rbs.foldl (fun d2 rb => addDep d2 rb x) d) := by
  intro rbs
  induction rbs with
  | nil => intro d; exact List.Subset.refl _
  | cons rb rbs ih =>
    intro d y hy
    simp only [List.foldl_cons]
    exact ih (addDep d rb x) (addDep_keys_super d rb x hy)

theorem innerFold_preserve (x : String) :
    ∀ (rbs : List String) (d : List (String × List String)) (a : String) (s : List String),
      (a, s) ∈ d →
      ∃ s', (a, s') ∈ rbs.foldl (fun d2 rb => addDep d2 rb x) d ∧ s ⊆ s' := by
  intro rbs
  induction rbs with
  | nil => intro d a s hs; exact ⟨s, hs, List.Subset.refl _⟩
  | cons rb rbs ih =>
    intro d a s hs
    obtain ⟨s1, hs1, hsub1⟩ := addDep_preserve d rb x hs
    obtain ⟨s2, hs2, hsub2⟩ := ih (addDep d rb x) a s1 hs1
    exact ⟨s2, by simpa using hs2, hsub1.trans hsub2⟩

theorem innerFold_records (x : String) :
    ∀ (rbs : List String) (d : List (String × List String)) (rb : String), rb ∈ rbs →
      ∃ s, (rb, s) ∈ rbs.foldl (fun d2 rb => addDep d2 rb x) d ∧ x ∈ s := by
  intro rbs
  induction rbs with
  | nil => intro d rb h; cases h
  | cons rb0 rbs ih =>
    intro d rb h
    rcases List.mem_cons.mp h with rfl | h
    · obtain ⟨s1, hs1, hx1⟩ := addDep_exists d rb x
      obtain ⟨s2, hs2, hsub⟩ := innerFold_preserve x rbs (addDep d rb x) rb s1 hs1
      exact ⟨s2, by simpa using hs2, hsub hx1⟩
    · obtain ⟨s, hs, hx⟩ := ih (addDep d rb0 x) rb h
      exact ⟨s, by simpa using hs, hx⟩

theorem innerFold_src (x : String) :
    ∀ (rbs : List String) (d : List (String × List String)) (a : String) (s : List String),
      (a, s) ∈ rbs.foldl (fun d2 rb => addDep d2 rb x) d →
      ∀ y ∈ s, (y = x ∧ a ∈ rbs) ∨ ∃ s₀, (a, s₀) ∈ d ∧ y ∈ s₀ := by
  intro rbs
  induction rbs with
  | nil => intro d a s hs y hy; exact Or.inr ⟨s, hs, hy⟩
  | cons rb rbs ih =>
    intro d a s hs y hy
    rcases ih (addDep d rb x) a s (by simpa using hs) y hy with ⟨rfl, hmem⟩ | ⟨s₀, hs₀, hy₀⟩
    · exact Or.inl ⟨rfl, List.mem_cons.mpr (Or.inr hmem)⟩
    · rcases addDep_src d rb x hs₀ y hy₀ with ⟨hyx, hak⟩ | ⟨s₁, hs₁, hy₁⟩
      · exact Or.inl ⟨hyx, by rw [hak]; exact List.mem_cons_self _ _⟩
      · exact Or.inr ⟨s₁, hs₁, hy₁⟩

/-- The accumulator-update for one resource (lines 149-153). -/
theorem buildFold_keys_super :
    ∀ (rs : List Resource) (d : List (String × List String)),
      keysOf d ⊆ keysOf (rs.foldl
        (fun d r =>
          r.required_by.foldl (fun d2 rb => addDep d2 rb r.resource_name)
            (ensureKey d r.resource_name)) d) := by
  intro rs
  induction rs with
  | nil => intro d; exact List.Subset.refl _
  | cons r rs ih =>
    intro d y hy
    simp only [List.foldl_cons]
    exact ih _ (innerFold_keys_super r.resource_name r.required_by (ensureKey d r.resource_name)
      (ensureKey_keys_super d r.resource_name hy))

theorem buildFold_preserve :
    ∀ (rs : List Resource) (d : List (String × List String)) (a : String) (s : List String),
      (a, s) ∈ d →
      ∃ s', (a, s') ∈ rs.foldl
        (fun d r =>
          r.required_by.foldl (fun d2 rb => addDep d2 rb r.resource_name)
            (ensureKey d r.resource_name)) d ∧ s ⊆ s' := by
  intro rs
  induction rs with
  | nil => intro d a s hs; exact ⟨s, hs, List.Subset.refl _⟩
  | cons r rs ih =>
    intro d a s hs
    obtain ⟨s1, hs1, hsub1⟩ := innerFold_preserve r.resource_name r.required_by
      (ensureKey d r.resource_name) a s (ensureKey_pairs d r.resource_name hs)
    obtain ⟨s2, hs2, hsub2⟩ := ih _ a s1 hs1
    exact ⟨s2, by simpa using hs2, hsub1.trans hsub2⟩

theorem buildFold_keyed :
    ∀ (rs : List Resource) (d : List (String × List String)) (r : Resource), r ∈ rs →
      r.resource_name ∈ keysOf (rs.foldl
        (fun d r =>
          r.required_by.foldl (fun d2 rb => addDep d2 rb r.resource_name)
            (ensureKey d r.resource_name)) d) := by
  intro rs
  induction rs with
  | nil => intro d r h; cases h
  | cons r0 rs ih =>
    intro d r h
    rcases List.mem_cons.mp h with rfl | h
    · simp only [List.foldl_cons]
      exact buildFold_keys_super rs _
        (innerFold_keys_super r.resource_name r.required_by _
          (ensureKey_mem_key d r.resource_name))
    · simpa using ih _ r h

theorem buildFold_records :
    ∀ (rs : List Resource) (d : List (String × List String)) (r : Resource), r ∈ rs →
      ∀ rb ∈ r.required_by,
        ∃ s, (rb, s) ∈ rs.foldl
          (fun d r =>
            r.required_by.foldl (fun d2 rb => addDep d2 rb r.resource_name)
              (ensureKey d r.resource_name)) d ∧ r.resource_name ∈ s := by
  intro rs
  induction rs with
  | nil => intro d r h; cases h
  | cons r0 rs ih =>
    intro d r h rb hrb
    rcases List.mem_cons.mp h with rfl | h
    · obtain ⟨s1, hs1, hx1⟩ := innerFold_records r.resource_name r.required_by
        (ensureKey d r.resource_name) rb hrb
      obtain ⟨s2, hs2, hsub⟩ := buildFold_preserve rs _ rb s1 hs1
      exact ⟨s2, by simpa using hs2, hsub hx1⟩
    · obtain ⟨s, hs, hx⟩ := ih _ r h rb hrb
      exact ⟨s, by simpa using hs, hx⟩

theorem buildFold_src :
    ∀ (rs : List Resource) (d : List (String × List String)) (a : String) (s : List String),
      (a, s) ∈ rs.foldl
        (fun d r =>
          r.required_by.foldl (fun d2 rb => addDep d2 rb r.resource_name)
            (ensureKey d r.resource_name)) d →
      ∀ y ∈ s, (∃ s₀, (a, s₀) ∈ d ∧ y ∈ s₀)
        ∨ ∃ r ∈ rs, r.resource_name = y ∧ a ∈ r.required_by := by
  intro rs
  induction rs with
  | nil => intro d a s hs y hy; exact Or.inl ⟨s, hs, hy⟩
  | cons r0 rs ih =>
    intro d a s hs y hy
    rcases ih _ a s (by simpa using hs) y hy with ⟨s₀, hs₀, hy₀⟩ | ⟨r, hr, hry⟩
    · rcases innerFold_src r0.resource_name r0.required_by _ a s₀ hs₀ y hy₀ with
        ⟨rfl, hmem⟩ | ⟨s₁, hs₁, hy₁⟩
      · exact Or.inr ⟨r0, List.mem_cons_self _ _, rfl, hmem⟩
      · rcases ensureKey_pairs_src d r0.resource_name hs₁ with h1 | h1
        · exact Or.inl ⟨s₁, h1, hy₁⟩
        · exfalso
          rw [Prod.mk.injEq] at h1
          rw [h1.2] at hy₁
          cases hy₁
    · exact Or.inr ⟨r, List.mem_cons.mpr (Or.inr hr), hry⟩

/-! ## Claim theorems: dependency graph build -/

/-- C8: the dependency graph built during recovery gives every listed
resource a key; records, for each name `D` in a resource `R`'s
`required_by`, `R` as a member of `D`'s dependency set; every name in any
dependency set is itself a key (no dangling edges); and an isolated
resource (one that no listed resource names in its `required_by`) maps to
the empty dependency set. -/
theorem claim_C8_dependency_graph_invariants (resources : List Resource)
    (r : Resource) (hr : r ∈ resources) :
    r.resource_name ∈ keysOf (buildDeps resources)
    ∧ (∀ rb ∈ r.required_by,
        ∃ s, (rb, s) ∈ buildDeps resources ∧ r.resource_name ∈ s)
    ∧ (∀ q ∈ buildDeps resources, ∀ y ∈ q.2, y ∈ keysOf (buildDeps resources))
    ∧ ((∀ r' ∈ resources, r.resource_name ∉ r'.required_by) →
        (r.resource_name, []) ∈ buildDeps resources) := by
  refine ⟨buildFold_keyed resources [] r hr,
    fun rb hrb => buildFold_records resources [] r hr rb hrb, ?_, ?_⟩
  · intro q hq y hy
    rcases buildFold_src resources [] q.1 q.2 hq y hy with ⟨s₀, hs₀, _⟩ | ⟨r', hr', hy', _⟩
    · cases hs₀
    · rw [← hy']
      exact buildFold_keyed resources [] r' hr'
  · intro hiso
    have hk := buildFold_keyed resources [] r hr
    rcases List.mem_map.mp hk with ⟨q, hq, hfst⟩
    have hempty : q.2 = [] := by
      rw [List.eq_nil_iff_forall_not_mem]
      intro y hy
      rcases buildFold_src resources [] q.1 q.2 hq y hy with ⟨s₀, hs₀, _⟩ | ⟨r', hr', _, hmem⟩
      · cases hs₀
      · rw [hfst] at hmem
        exact hiso r' hr' hmem
    rw [← hfst, ← hempty]
    exact hq

/-- Witness for C8 at a concrete two-resource listing: `"b"` depends on
`"a"` (resource `"a"` lists `"b"` in `required_by`), `"c"` is isolated. -/
theorem claim_C8_witness :
    (⟨"a", ["b"], "s1", "t1", "p1"⟩ : Resource)
        ∈ [(⟨"a", ["b"], "s1", "t1", "p1"⟩ : Resource), ⟨"c", [], "s2", "t2", "p2"⟩]
    ∧ ((⟨"a", ["b"], "s1", "t1", "p1"⟩ : Resource).resource_name
          ∈ keysOf (buildDeps [⟨"a", ["b"], "s1", "t1", "p1"⟩, ⟨"c", [], "s2", "t2", "p2"⟩])
      ∧ (∀ rb ∈ (⟨"a", ["b"], "s1", "t1", "p1"⟩ : Resource).required_by,
          ∃ s, (rb, s) ∈ buildDeps [⟨"a", ["b"], "s1", "t1", "p1"⟩, ⟨"c", [], "s2", "t2", "p2"⟩]
            ∧ (⟨"a", ["b"], "s1", "t1", "p1"⟩ : Resource).resource_name ∈ s)
      ∧ (∀ q ∈ buildDeps [⟨"a", ["b"], "s1", "t1", "p1"⟩, ⟨"c", [], "s2", "t2", "p2"⟩],
          ∀ y ∈ q.2,
            y ∈ keysOf (buildDeps [⟨"a", ["b"], "s1", "t1", "p1"⟩, ⟨"c", [], "s2", "t2", "p2"⟩]))
      ∧ ((∀ r' ∈ [(⟨"a", ["b"], "s1", "t1", "p1"⟩ : Resource), ⟨"c", [], "s2", "t2", "p2"⟩],
            (⟨"a", ["b"], "s1", "t1", "p1"⟩ : Resource).resource_name ∉ r'.required_by) →
          ((⟨"a", ["b"], "s1", "t1", "p1"⟩ : Resource).resource_name, [])
            ∈ buildDeps [⟨"a", ["b"], "s1", "t1", "p1"⟩, ⟨"c", [], "s2", "t2", "p2"⟩])) :=
  ⟨by decide,
   claim_C8_dependency_graph_invariants
     [⟨"a", ["b"], "s1", "t1", "p1"⟩, ⟨"c", [], "s2", "t2", "p2"⟩]
     ⟨"a", ["b"], "s1", "t1", "p1"⟩ (by decide)⟩

/-! ## Lemmas about the recovery pass -/

theorem resLookup_mem {resources : List Resource} {n : String} {r : Resource}
    (h : resLookup resources n = some r) : r ∈ resources :=
  List.mem_reverse.mp (List.mem_of_find?_eq_some h)

theorem processNames_src :
    ∀ (ns : List String) (resources : List Resource) (a : Action),
      a ∈ (processNames resources ns).1 →
      ∃ r ∈ resources, r.resource_status = "DELETE_FAILED"
        ∧ ((r.resource_type = "OS::Cinder::Volume" ∧ a = ("cinder", r.physical_resource_id))
          ∨ (r.resource_type = "OS::Nova::Server" ∧ a = ("nova", r.physical_resource_id))) := by
  intro ns
  induction ns with
  | nil => intro resources a ha; simp [processNames] at ha
  | cons n rest ih =>
    intro resources a ha
    cases hl : resLookup resources n with
    | none => simp [processNames, hl] at ha
    | some r =>
      simp only [processNames, hl] at ha
      rcases List.mem_append.mp ha with ha | ha
      · by_cases hst : r.resource_status = "DELETE_FAILED"
        · by_cases ht1 : r.resource_type = "OS::Cinder::Volume"
          · rw [if_pos hst, if_pos ht1] at ha
            exact ⟨r, resLookup_mem hl, hst, Or.inl ⟨ht1, List.mem_singleton.mp ha⟩⟩
          · by_cases ht2 : r.resource_type = "OS::Nova::Server"
            · rw [if_pos hst, if_neg ht1, if_pos ht2] at ha
              exact ⟨r, resLookup_mem hl, hst, Or.inr ⟨ht2, List.mem_singleton.mp ha⟩⟩
            · rw [if_pos hst, if_neg ht1, if_neg ht2] at ha
              cases ha
        · rw [if_neg hst] at ha
          cases ha
      · exact ih resources a ha

/-! ## Claim theorems: recovery pass and orchestrator -/

/-- C9: the recovery pass issues a force-delete only for a resource whose
status is `DELETE_FAILED` and whose type is in the two-element allow-list
(`OS::Cinder::Volume` via the cinder client, `OS::Nova::Server` via the
nova client); every action in the pass's output is accounted for by such a
resource, so every other resource is left untouched. -/
theorem claim_C9_force_delete_allow_list (resources : List Resource) (a : Action)
    (ha : a ∈ (recoveryPass resources).1) :
    ∃ r ∈ resources, r.resource_status = "DELETE_FAILED"
      ∧ ((r.resource_type = "OS::Cinder::Volume" ∧ a = ("cinder", r.physical_resource_id))
        ∨ (r.resource_type = "OS::Nova::Server" ∧ a = ("nova", r.physical_resource_id))) := by
  have hmem : a ∈ (processNames resources
      (topological_sort (buildDeps resources)).1).1 := by
    simpa [recoveryPass] using ha
  exact processNames_src _ resources a hmem

/-- Witness for C9: one `DELETE_FAILED` cinder volume produces the cinder
force-delete action. -/
theorem claim_C9_witness :
    ("cinder", "pv")
        ∈ (recoveryPass [⟨"v", [], "DELETE_FAILED", "OS::Cinder::Volume", "pv"⟩]).1
    ∧ ∃ r ∈ [(⟨"v", [], "DELETE_FAILED", "OS::Cinder::Volume", "pv"⟩ : Resource)],
        r.resource_status = "DELETE_FAILED"
        ∧ ((r.resource_type = "OS::Cinder::Volume"
              ∧ (("cinder", "pv") : Action) = ("cinder", r.physical_resource_id))
          ∨ (r.resource_type = "OS::Nova::Server"
              ∧ (("cinder", "pv") : Action) = ("nova", r.physical_resource_id))) :=
  ⟨by decide,
   claim_C9_force_delete_allow_list
     [⟨"v", [], "DELETE_FAILED", "OS::Cinder::Volume", "pv"⟩] ("cinder", "pv") (by decide)⟩

/-- C3: when the first deletion poll raises a failure carrying message
`e1`, the recovery pass completes, and the retry poll raises again (with
any message `e2`), the probe ends CRITICAL carrying the first failure's
message; the second failure's detail does not appear in the outcome. -/
theorem claim_C3_first_failure_surfaced (s1 s2 : Nat → String)
    (resources : List Resource) (timeout : Nat) (e1 e2 : String)
    (h1 : wait_for_completion s1 timeout = Except.error e1)
    (hp : (recoveryPass resources).2 = false)
    (h2 : wait_for_completion s2 timeout = Except.error e2) :
    (delete_stack s1 s2 resources timeout).1
      = ProbeOutcome.critical ("Error while deleting the Heat stack: " ++ e1 ++ "\n") := by
  simp [delete_stack, h1, hp, h2]

/-- Witness for C3: first poll sees `FAILED`, retry poll sees `BROKEN`;
the CRITICAL message carries the first status only. -/
theorem claim_C3_witness :
    wait_for_completion (fun _ => "FAILED") 45 = Except.error "Stack is in FAILED state"
    ∧ (recoveryPass []).2 = false
    ∧ wait_for_completion (fun _ => "BROKEN") 45 = Except.error "Stack is in BROKEN state"
    ∧ (delete_stack (fun _ => "FAILED") (fun _ => "BROKEN") [] 45).1
        = ProbeOutcome.critical
            ("Error while deleting the Heat stack: " ++ "Stack is in FAILED state" ++ "\n") :=
  ⟨rfl, rfl, rfl,
   claim_C3_first_failure_surfaced (fun _ => "FAILED") (fun _ => "BROKEN") [] 45
     "Stack is in FAILED state" "Stack is in BROKEN state" rfl rfl rfl⟩

/-- C10: the retry poll's elapsed value is never compared against the
budget: if the first poll raised, the recovery pass completed, and the
retry poll returns normally with `elapsed ≥ timeout` (a timed-out retry),
the probe still exits WARNING ("Stack needed to force deleted") — whereas
on the first attempt an elapsed value `≥ timeout` exits CRITICAL ("Stack
deletion took too long"). -/
theorem claim_C10_retry_timeout_not_checked (s1 s2 : Nat → String)
    (resources : List Resource) (timeout : Nat) (e1 : String) (spent : Nat)
    (h1 : wait_for_completion s1 timeout = Except.error e1)
    (hp : (recoveryPass resources).2 = false)
    (h2 : wait_for_completion s2 timeout = Except.ok spent)
    (_hto : timeout ≤ spent) :
    (delete_stack s1 s2 resources timeout).1
        = ProbeOutcome.warning "Stack needed to force deleted"
    ∧ ∀ (s1' : Nat → String) (spent' : Nat),
        wait_for_completion s1' timeout = Except.ok spent' → timeout ≤ spent' →
        (delete_stack s1' s2 resources timeout).1
          = ProbeOutcome.critical "Stack deletion took too long" := by
  constructor
  · simp [delete_stack, h1, hp, h2]
  · intro s1' spent' h1' hto'
    simp [delete_stack, h1', hto']

/-- Witness for C10: retry poll stays `IN_PROGRESS` to budget exhaustion
(elapsed 45 = timeout 45) yet the outcome is WARNING. -/
theorem claim_C10_witness :
    wait_for_completion (fun _ => "FAILED") 45 = Except.error "Stack is in FAILED state"
    ∧ (recoveryPass []).2 = false
    ∧ wait_for_completion (fun _ => "IN_PROGRESS") 45 = Except.ok 45
    ∧ 45 ≤ 45
    ∧ ((delete_stack (fun _ => "FAILED") (fun _ => "IN_PROGRESS") [] 45).1
          = ProbeOutcome.warning "Stack needed to force deleted"
      ∧ ∀ (s1' : Nat → String) (spent' : Nat),
          wait_for_completion s1' 45 = Except.ok spent' → 45 ≤ spent' →
          (delete_stack s1' (fun _ => "IN_PROGRESS") [] 45).1
            = ProbeOutcome.critical "Stack deletion took too long") :=
  ⟨rfl, rfl, rfl, le_rfl,
   claim_C10_retry_timeout_not_checked (fun _ => "FAILED") (fun _ => "IN_PROGRESS") [] 45
     "Stack is in FAILED state" 45 rfl rfl rfl le_rfl⟩

end HeatCheck
